import Mathlib

/-!
Shallow embedding of the `sealion_board` chessboard crate
(`src/crates/board/src/lib.rs`): the `Square` type with its coordinate and
algebraic-notation conversions, and the `Board` built from per-color and
per-piece-kind bitboards.  The `BitBoard`, `Color`, `PieceKind` and `Piece`
submodules (`bitboard.rs`, `piece.rs`) are not among the sources and are
modelled from the specification where noted.  Machine integers are embedded
as `Nat` with explicit wrapping where the code wraps.
-/

namespace Sealion

/-- The Rust struct `Square(u8)`: a position on the board, backed by its raw
index (`raw_index`). -/
structure Square where
  raw : Nat
deriving DecidableEq

/-- The constructor `Square::at(rank, file)`: `None` when
`rank > 7 || file > 7`, otherwise the square with index `rank * 8 + file`.
(`at` is a reserved word in Lean, hence the primed name.) -/
def Square.at' (rank file : Nat) : Option Square :=
  if rank > 7 ∨ file > 7 then none
  else some ⟨rank * 8 + file⟩

/-- The projection `Square::rank`: `self.0 / 8`. -/
def Square.rank (sq : Square) : Nat := sq.raw / 8

/-- The projection `Square::file`: `self.0 % 8`. -/
def Square.file (sq : Square) : Nat := sq.raw % 8

/-- The impl `TryFrom<(u8, u8)> for Square`: `Square::at(value.0, value.1)`,
with the error `Err(())` embedded as `none`. -/
def Square.try_from (rank file : Nat) : Option Square := Square.at' rank file

/-- Wrapping byte subtraction, `u8::overflowing_sub(a, b).0`, for byte
values `a < 256` and a subtrahend `b ≤ 256`. -/
def wsub (a b : Nat) : Nat := (a + 256 - b) % 256

/-- The impl `FromStr for Square` over the input's byte string: rejects
length ≠ 2, maps the first byte through the capital-vs-lowercase heuristic
(subtract `b'a' = 97` when the byte exceeds `b'H' = 72`, else `b'A' = 65`),
maps the second byte by subtracting `b'1' = 49`, both with wrapping
subtraction, and validates the pair via `try_from`.  The parse error
`Err(())` is embedded as `none`. -/
def Square.from_str (s : List Nat) : Option Square :=
  if s.length ≠ 2 then none
  else
    let rank := s.getD 0 0
    let rank := wsub rank (if rank > 72 then 97 else 65)
    let file := s.getD 1 0
    let file := wsub file 49
    Square.try_from rank file

/-- The impl `Display for Square`, as the byte string it writes: the byte
`self.file() + b'a'` followed by the decimal digits of `self.rank() + 1`. -/
def Square.displayBytes (sq : Square) : List Nat :=
  (sq.file + 97) :: (Nat.toDigits 10 (sq.rank + 1)).map Char.toNat

/-- The body of `Square::from_str` with each potential panic site explicit:
the outer `none` models a panic (an out-of-bounds byte index `s[0]`/`s[1]`);
the wrapping subtractions and the range check in `at` never panic. -/
def Square.from_strChecked (s : List Nat) : Option (Option Square) :=
  if s.length ≠ 2 then some none
  else
    match s.get? 0, s.get? 1 with
    | some r, some f =>
        some (Square.try_from (wsub r (if r > 72 then 97 else 65)) (wsub f 49))
    | _, _ => none

/-- Modelled from the spec: `BitBoard` (from `bitboard.rs`, which is not
among the sources): a 64-bit mask over squares, bit `i` set meaning square
`i` is a member.  The backing `u64` is embedded as a `Nat`. -/
structure BitBoard where
  v : Nat
deriving DecidableEq

/-- Modelled from the spec: the `BitBoard` membership test, true iff the bit
at `square.raw_index()` is set. -/
def BitBoard.get (bb : BitBoard) (sq : Square) : Bool := bb.v.testBit sq.raw

/-- Modelled from the spec: `BitBoard` single-bit set/clear at the square's
index (`v | (1 << i)` to set, `v & !(1 << i)` to clear, on a `u64`; the
complement mask is `(2^64 - 1) ^^^ 2^i`). -/
def BitBoard.set (bb : BitBoard) (sq : Square) (value : Bool) : BitBoard :=
  if value then ⟨bb.v ||| 2 ^ sq.raw⟩
  else ⟨bb.v &&& ((2 ^ 64 - 1) ^^^ 2 ^ sq.raw)⟩

/-- Modelled from the spec: `Color`, a closed enumeration with dense
representation White = 0, Black = 1 (`Color::COUNT = 2`). -/
inductive Color where
  | White
  | Black
deriving DecidableEq

/-- The dense representation of a `Color`, as the array index it selects. -/
def Color.toIdx : Color → Fin 2
  | .White => 0
  | .Black => 1

/-- Modelled from the spec: `Color::from_repr`, the reverse mapping from the
dense representation, absent for out-of-range numbers. -/
def Color.from_repr (n : Nat) : Option Color :=
  if n = 0 then some .White
  else if n = 1 then some .Black
  else none

/-- Modelled from the spec: `PieceKind`, a closed enumeration with dense
representation Pawn = 0, Knight = 1, Bishop = 2, Rook = 3, Queen = 4,
King = 5 (`PieceKind::COUNT = 6`). -/
inductive PieceKind where
  | Pawn
  | Knight
  | Bishop
  | Rook
  | Queen
  | King
deriving DecidableEq

/-- The dense representation of a `PieceKind`, as the array index it
selects. -/
def PieceKind.toIdx : PieceKind → Fin 6
  | .Pawn => 0
  | .Knight => 1
  | .Bishop => 2
  | .Rook => 3
  | .Queen => 4
  | .King => 5

/-- Modelled from the spec: `PieceKind::from_repr`, the reverse mapping from
the dense representation, absent for out-of-range numbers. -/
def PieceKind.from_repr (n : Nat) : Option PieceKind :=
  if n = 0 then some .Pawn
  else if n = 1 then some .Knight
  else if n = 2 then some .Bishop
  else if n = 3 then some .Rook
  else if n = 4 then some .Queen
  else if n = 5 then some .King
  else none

/-- Modelled from the spec: `Piece`, a pair of a `Color` and a
`PieceKind`. -/
structure Piece where
  color : Color
  kind : PieceKind
deriving DecidableEq

/-- The standard chess letter of a `PieceKind`. -/
def PieceKind.letter : PieceKind → Char
  | .Pawn => 'P'
  | .Knight => 'N'
  | .Bishop => 'B'
  | .Rook => 'R'
  | .Queen => 'Q'
  | .King => 'K'

/-- Modelled from the spec: `Piece::as_char`, the single-character glyph:
the standard chess letter, uppercase for White and lowercase for Black. -/
def Piece.as_char (p : Piece) : Char :=
  match p.color with
  | .White => p.kind.letter
  | .Black => p.kind.letter.toLower

/-- The Rust struct `Board`: one `BitBoard` per `Color` (`color_bb`) and one
per `PieceKind` (`piece_bb`), the fixed-size arrays embedded as functions
from their index types. -/
structure Board where
  color_bb : Fin 2 → BitBoard
  piece_bb : Fin 6 → BitBoard

/-- `Board::get_color`: scan the color bitboards in index order
(`iter().enumerate().find_map`), returning the first whose mask contains
the square, through `Color::from_repr`. -/
def Board.get_color (b : Board) (sq : Square) : Option Color :=
  (List.finRange 2).findSome? fun n =>
    if (b.color_bb n).get sq then Color.from_repr n.val else none

/-- `Board::get_piece_kind`: the analogous scan over the six piece-kind
bitboards. -/
def Board.get_piece_kind (b : Board) (sq : Square) : Option PieceKind :=
  (List.finRange 6).findSome? fun n =>
    if (b.piece_bb n).get sq then PieceKind.from_repr n.val else none

/-- `Board::get`: `get_color(square).zip(get_piece_kind(square))`, succeeding
only when both succeed. -/
def Board.get (b : Board) (sq : Square) : Option Piece :=
  match b.get_color sq, b.get_piece_kind sq with
  | some color, some kind => some { color := color, kind := kind }
  | _, _ => none

/-- `Board::set`: with `Some(piece)`, set the bit for `piece.color` in the
color array and for `piece.kind` in the kind array at `square` (array write
at the dense index); with `None`, clear the bit at `square` in every color
bitboard and every piece-kind bitboard. -/
def Board.set (b : Board) (sq : Square) (piece : Option Piece) : Board :=
  match piece with
  | some p =>
      { color_bb := fun c =>
          if c = p.color.toIdx then (b.color_bb c).set sq true else b.color_bb c
        piece_bb := fun k =>
          if k = p.kind.toIdx then (b.piece_bb k).set sq true else b.piece_bb k }
  | none =>
      { color_bb := fun c => (b.color_bb c).set sq false
        piece_bb := fun k => (b.piece_bb k).set sq false }

/-- `Board::default()` (derived `Default`): an empty board, all masks
zero. -/
def Board.empty : Board :=
  { color_bb := fun _ => ⟨0⟩, piece_bb := fun _ => ⟨0⟩ }

/-- `Board::starting_position`: the fixed literal masks assigned per color
and per piece kind. -/
def Board.starting_position : Board :=
  { color_bb := ![⟨0xFFFF⟩, ⟨0xFFFF000000000000⟩]
    piece_bb := ![⟨0x00FF00000000FF00⟩, ⟨0x4200000000000042⟩,
                  ⟨0x2400000000000024⟩, ⟨0x8100000000000081⟩,
                  ⟨0x0800000000000008⟩, ⟨0x1000000000000010⟩] }

/-- Applying a sequence of `Board::set` calls in order. -/
def applyOps (b : Board) (ops : List (Square × Option Piece)) : Board :=
  ops.foldl (fun b op => b.set op.1 op.2) b

/-- The clear-before-overwrite contract between two consecutive `set`
calls: when the second call places a piece, the first call cleared the same
square. -/
def Rclear (o1 o2 : Square × Option Piece) : Prop :=
  o2.2.isSome → o1 = (o2.1, none)

/-- A `set`-call sequence in which every `set(square, Some(piece))` is
immediately preceded by `set(square, None)` on the same square: consecutive
calls satisfy `Rclear`, and the first call places no piece. -/
def ClearBefore (ops : List (Square × Option Piece)) : Prop :=
  (match ops with
   | (_, some _) :: _ => False
   | _ => True) ∧
  List.Chain' Rclear ops

/-- At square index `i`, at most one color bitboard of `b` has the bit
set. -/
def Board.ColorExclAt (b : Board) (i : Nat) : Prop :=
  ∀ c1 c2 : Fin 2,
    (b.color_bb c1).get ⟨i⟩ = true → (b.color_bb c2).get ⟨i⟩ = true → c1 = c2

/-- At square index `i`, at most one piece-kind bitboard of `b` has the bit
set. -/
def Board.KindExclAt (b : Board) (i : Nat) : Prop :=
  ∀ k1 k2 : Fin 6,
    (b.piece_bb k1).get ⟨i⟩ = true → (b.piece_bb k2).get ⟨i⟩ = true → k1 = k2

/-- The mutual-exclusion invariant: at every square, at most one color and
at most one piece-kind bitboard have the bit set. -/
def Board.Excl (b : Board) : Prop :=
  ∀ i, i ≤ 63 → b.ColorExclAt i ∧ b.KindExclAt i

/-- The square `sq` is clear in every color and every piece-kind bitboard
of `b`. -/
def Board.AllClearAt (b : Board) (sq : Square) : Prop :=
  (∀ c : Fin 2, (b.color_bb c).get sq = false) ∧
  (∀ k : Fin 6, (b.piece_bb k).get sq = false)

/-- The header row written by `Display for Board`. -/
def headerLine : List Char := (" a  b  c  d  e  f  g  h").data

/-- One cell of the board dump: a space, the piece's glyph and a space for
an occupied square, three spaces for an empty one. -/
def Board.cell (b : Board) (idx : Nat) : List Char :=
  match b.get ⟨idx⟩ with
  | some piece => [' ', piece.as_char, ' ']
  | none => [' ', ' ', ' ']

/-- The inner loop of `Display for Board`: print `n` cells, incrementing
the raw square index after each; returns the printed text and the final
index. -/
def Board.fmtCells (b : Board) : Nat → Nat → List Char × Nat
  | 0, square => ([], square)
  | n + 1, square =>
      let rest := b.fmtCells n (square + 1)
      (b.cell square ++ rest.1, rest.2)

/-- The outer loop of `Display for Board`: after each row of 8 cells, a
newline and `square = square.saturating_sub(16)` (`Nat` subtraction is
saturating). -/
def Board.fmtRows (b : Board) : Nat → Nat → List Char
  | 0, _ => []
  | n + 1, square =>
      let row := b.fmtCells 8 square
      row.1 ++ '\n' :: b.fmtRows n (row.2 - 16)

/-- `Display for Board`, as the character stream it writes: the header
line, then 8 rows starting from the raw index of `Square::at(7, 0)`. -/
def Board.render (b : Board) : List Char :=
  headerLine ++ '\n' :: b.fmtRows 8 56

/-- The grid described by the spec's words: one header line, then rank
indices 7 down to 0, each row traversing file indices 0 through 7 left to
right, each cell showing the glyph of `get` when occupied and blank
otherwise. -/
def Board.renderSpec (b : Board) : List Char :=
  headerLine ++ '\n' ::
    ((List.range 8).reverse.map fun r =>
      ((List.range 8).map fun f => b.cell (r * 8 + f)).flatten ++ ['\n']).flatten

/-- C6: for all byte values `rank` and `file`, `Square::at` returns `None`
exactly when `rank > 7` or `file > 7`; otherwise the resulting square's raw
index is `rank * 8 + file` and its `rank()`/`file()` projections return the
original coordinates. -/
theorem c6_square_at (rank file : Nat) (_h1 : rank < 256) (_h2 : file < 256) :
    (Square.at' rank file = none ↔ (rank > 7 ∨ file > 7)) ∧
    ∀ sq, Square.at' rank file = some sq →
      sq.raw = rank * 8 + file ∧ sq.rank = rank ∧ sq.file = file := by
  unfold Square.at'
  split_ifs with h
  · exact ⟨by simp [h], fun sq hsq => by cases hsq⟩
  · push_neg at h
    refine ⟨by simp [h.1, h.2, Nat.not_lt.mpr], fun sq hsq => ?_⟩
    cases hsq
    refine ⟨rfl, ?_, ?_⟩
    · show (rank * 8 + file) / 8 = rank
      omega
    · show (rank * 8 + file) % 8 = file
      omega

/-- Witness for C6 at the concrete coordinates rank 0, file 4. -/
theorem c6_square_at_witness :
    (Square.at' 0 4 = none ↔ (0 > 7 ∨ 4 > 7)) ∧
    ∀ sq, Square.at' 0 4 = some sq →
      sq.raw = 0 * 8 + 4 ∧ sq.rank = 0 ∧ sq.file = 4 :=
  c6_square_at 0 4 (by decide) (by decide)

/-- C1 (code bug): the round-trip law fails on the code.  `Square::at(0,1)`
is the square with raw index 1; `Display` renders it as the bytes of
`"b1"`, and re-parsing `"b1"` yields the square with raw index 8, a
different square.  The cause: `Display` prints `file() + b'a'` then
`rank() + 1` while `from_str` feeds the letter into the `rank` argument of
`at`.  The repo's own test expects `Square::at(5,7)` to format as `"f8"`
(bytes `[102, 56]`), but the code formats it as `"h6"` (bytes
`[104, 54]`). -/
theorem c1_display_parse_divergence :
    Square.at' 0 1 = some ⟨1⟩ ∧
    Square.displayBytes ⟨1⟩ = [98, 49] ∧
    Square.from_str [98, 49] = some ⟨8⟩ ∧
    (⟨8⟩ : Square) ≠ (⟨1⟩ : Square) ∧
    Square.at' 5 7 = some ⟨47⟩ ∧
    Square.displayBytes ⟨47⟩ = [104, 54] ∧
    Square.displayBytes ⟨47⟩ ≠ [102, 56] := by
  decide

/-- C5: parsing fails for every byte string whose length is not 2, and on
the concrete inputs: `"a2"` = `[97,50]` yields rank 0 file 1 (raw 1);
`"h8"` = `[104,56]` yields rank 7 file 7 (raw 63); `"C5"` = `[67,53]`
yields rank 2 file 4 (raw 20); `"5c"` = `[53,99]`, `"b-"` = `[98,45]`,
`"^8"` = `[94,56]`, `"b891"` = `[98,56,57,49]` and `"b0"` = `[98,48]` all
fail. -/
theorem c5_parse_cases :
    (∀ s : List Nat, s.length ≠ 2 → Square.from_str s = none) ∧
    Square.from_str [97, 50] = some ⟨1⟩ ∧
    Square.from_str [104, 56] = some ⟨63⟩ ∧
    Square.from_str [67, 53] = some ⟨20⟩ ∧
    Square.from_str [53, 99] = none ∧
    Square.from_str [98, 45] = none ∧
    Square.from_str [94, 56] = none ∧
    Square.from_str [98, 56, 57, 49] = none ∧
    Square.from_str [98, 48] = none := by
  refine ⟨fun s h => ?_, ?_⟩
  · unfold Square.from_str
    simp [h]
  · decide

/-- Witness for C5's length hypothesis at the concrete input `"b891"`. -/
theorem c5_parse_cases_witness : Square.from_str [98, 56, 57, 49] = none :=
  c5_parse_cases.1 [98, 56, 57, 49] (by decide)

/-- C10: `Square::from_str` is total and panic-free: on every byte string
the explicit-panic-site variant reaches a normal `Ok`/`Err` result (it
equals `some` of `from_str`), and any square it produces has been
range-checked by `Square::at`, so its raw index is at most 63. -/
theorem c10_from_str_total (s : List Nat) :
    Square.from_strChecked s = some (Square.from_str s) ∧
    ∀ sq, Square.from_str s = some sq → sq.raw ≤ 63 := by
  constructor
  · match s with
    | [] => rfl
    | [_] => rfl
    | a :: b :: rest =>
      match rest with
      | [] => rfl
      | _ :: _ => rfl
  · intro sq h
    unfold Square.from_str Square.try_from Square.at' at h
    by_cases h1 : s.length ≠ 2
    · rw [if_pos h1] at h
      cases h
    · rw [if_neg h1] at h
      simp only at h
      split_ifs at h with hb hr hb2
      all_goals cases h
      all_goals push_neg at *
      all_goals show _ * 8 + _ ≤ 63
      all_goals omega

/-- Witness for C10 at the concrete input `"a2"` = `[97, 50]`. -/
theorem c10_from_str_total_witness :
    Square.from_strChecked [97, 50] = some (Square.from_str [97, 50]) ∧
    (⟨1⟩ : Square).raw ≤ 63 :=
  ⟨(c10_from_str_total [97, 50]).1,
   (c10_from_str_total [97, 50]).2 ⟨1⟩ (by decide)⟩

/-- Auxiliary: how `BitBoard.set` changes a membership test, for in-range
indices. -/
theorem BitBoard.get_set (bb : BitBoard) (sq t : Square) (value : Bool)
    (hsq : sq.raw ≤ 63) (ht : t.raw ≤ 63) :
    (bb.set sq value).get t = if t.raw = sq.raw then value else bb.get t := by
  unfold BitBoard.set BitBoard.get
  cases value
  · show (bb.v &&& ((2 ^ 64 - 1) ^^^ 2 ^ sq.raw)).testBit t.raw = _
    rw [Nat.testBit_and, Nat.testBit_xor, Nat.testBit_two_pow_sub_one,
      Nat.testBit_two_pow]
    by_cases h : t.raw = sq.raw
    · simp [h, (by omega : sq.raw < 64)]
    · have hne : ¬(sq.raw = t.raw) := fun hc => h hc.symm
      simp [h, hne, (by omega : t.raw < 64)]
  · show (bb.v ||| 2 ^ sq.raw).testBit t.raw = _
    rw [Nat.testBit_or, Nat.testBit_two_pow]
    by_cases h : t.raw = sq.raw
    · simp [h]
    · have hne : ¬(sq.raw = t.raw) := fun hc => h hc.symm
      simp [h, hne]

/-- Auxiliary: `get_color` as the explicit scan of the two color
bitboards in index order. -/
theorem Board.get_color_eq (b : Board) (sq : Square) :
    b.get_color sq =
      if (b.color_bb 0).get sq then some Color.White
      else if (b.color_bb 1).get sq then some Color.Black
      else none := by
  unfold Board.get_color
  have hfr : List.finRange 2 = [0, 1] := by decide
  rw [hfr]
  cases h0 : (b.color_bb 0).get sq <;> cases h1 : (b.color_bb 1).get sq <;>
    simp [List.findSome?_cons, h0, h1, Color.from_repr]

/-- Auxiliary: `get_piece_kind` as the explicit scan of the six piece-kind
bitboards in index order. -/
theorem Board.get_piece_kind_eq (b : Board) (sq : Square) :
    b.get_piece_kind sq =
      if (b.piece_bb 0).get sq then some PieceKind.Pawn
      else if (b.piece_bb 1).get sq then some PieceKind.Knight
      else if (b.piece_bb 2).get sq then some PieceKind.Bishop
      else if (b.piece_bb 3).get sq then some PieceKind.Rook
      else if (b.piece_bb 4).get sq then some PieceKind.Queen
      else if (b.piece_bb 5).get sq then some PieceKind.King
      else none := by
  unfold Board.get_piece_kind
  have hfr : List.finRange 6 = [0, 1, 2, 3, 4, 5] := by decide
  rw [hfr]
  cases h0 : (b.piece_bb 0).get sq <;> cases h1 : (b.piece_bb 1).get sq <;>
    cases h2 : (b.piece_bb 2).get sq <;> cases h3 : (b.piece_bb 3).get sq <;>
      cases h4 : (b.piece_bb 4).get sq <;> cases h5 : (b.piece_bb 5).get sq <;>
        simp [List.findSome?_cons, h0, h1, h2, h3, h4, h5,
          PieceKind.from_repr] <;> rfl

/-- Auxiliary: the color array after `set(sq, None)`. -/
theorem Board.set_none_color (b : Board) (sq : Square) (c : Fin 2) :
    ((b.set sq none).color_bb c) = (b.color_bb c).set sq false := rfl

/-- Auxiliary: the piece-kind array after `set(sq, None)`. -/
theorem Board.set_none_piece (b : Board) (sq : Square) (k : Fin 6) :
    ((b.set sq none).piece_bb k) = (b.piece_bb k).set sq false := rfl

/-- Auxiliary: the color array after `set(sq, Some(p))`. -/
theorem Board.set_some_color (b : Board) (sq : Square) (p : Piece) (c : Fin 2) :
    ((b.set sq (some p)).color_bb c) =
      if c = p.color.toIdx then (b.color_bb c).set sq true else b.color_bb c := rfl

/-- Auxiliary: the piece-kind array after `set(sq, Some(p))`. -/
theorem Board.set_some_piece (b : Board) (sq : Square) (p : Piece) (k : Fin 6) :
    ((b.set sq (some p)).piece_bb k) =
      if k = p.kind.toIdx then (b.piece_bb k).set sq true else b.piece_bb k := rfl

/-- Auxiliary: `get` only depends on the bitboard bits at the square. -/
theorem Board.get_congr (b b' : Board) (sq t : Square)
    (hc : ∀ c : Fin 2, (b'.color_bb c).get t = (b.color_bb c).get sq)
    (hk : ∀ k : Fin 6, (b'.piece_bb k).get t = (b.piece_bb k).get sq) :
    b'.get t = b.get sq := by
  unfold Board.get
  rw [Board.get_color_eq, Board.get_color_eq, Board.get_piece_kind_eq,
    Board.get_piece_kind_eq, hc 0, hc 1, hk 0, hk 1, hk 2, hk 3, hk 4, hk 5]

/-- Auxiliary: the empty board satisfies the mutual-exclusion invariant. -/
theorem Board.excl_empty : Board.empty.Excl := by
  intro i hi
  constructor <;> intro a c h1 h2 <;>
    simp [Board.empty, BitBoard.get] at h1

/-- Auxiliary: `set(sq, None)` leaves the square clear in every bitboard. -/
theorem Board.set_none_allClear (b : Board) (sq : Square) (hsq : sq.raw ≤ 63) :
    (b.set sq none).AllClearAt sq := by
  constructor
  · intro c
    rw [Board.set_none_color, BitBoard.get_set _ _ _ _ hsq hsq]
    simp
  · intro k
    rw [Board.set_none_piece, BitBoard.get_set _ _ _ _ hsq hsq]
    simp

/-- Auxiliary: `set(sq, None)` preserves the mutual-exclusion invariant. -/
theorem Board.excl_set_none (b : Board) (sq : Square) (hsq : sq.raw ≤ 63)
    (hb : b.Excl) : (b.set sq none).Excl := by
  intro i hi
  have hsqi : (⟨i⟩ : Square).raw ≤ 63 := hi
  constructor
  · intro c1 c2 h1 h2
    rw [Board.set_none_color, BitBoard.get_set _ _ _ _ hsq hsqi] at h1 h2
    split_ifs at h1 h2 with h
    exact (hb i hi).1 c1 c2 h1 h2
  · intro k1 k2 h1 h2
    rw [Board.set_none_piece, BitBoard.get_set _ _ _ _ hsq hsqi] at h1 h2
    split_ifs at h1 h2 with h
    exact (hb i hi).2 k1 k2 h1 h2

/-- Auxiliary: `set(sq, Some(p))` on an all-clear square preserves the
mutual-exclusion invariant. -/
theorem Board.excl_set_some (b : Board) (sq : Square) (p : Piece)
    (hsq : sq.raw ≤ 63) (hb : b.Excl) (hac : b.AllClearAt sq) :
    (b.set sq (some p)).Excl := by
  obtain ⟨sraw⟩ := sq
  intro i hi
  have hsqi : (⟨i⟩ : Square).raw ≤ 63 := hi
  constructor
  · intro c1 c2 h1 h2
    rw [Board.set_some_color] at h1 h2
    by_cases hraw : i = sraw
    · subst hraw
      have key : ∀ c : Fin 2,
          ((if c = p.color.toIdx then (b.color_bb c).set ⟨i⟩ true
            else b.color_bb c)).get ⟨i⟩ = true → c = p.color.toIdx := by
        intro c hcc
        by_contra hne
        rw [if_neg hne] at hcc
        rw [hac.1 c] at hcc
        cases hcc
      rw [key c1 h1, key c2 h2]
    · have unch : ∀ c : Fin 2,
          ((if c = p.color.toIdx then (b.color_bb c).set ⟨sraw⟩ true
            else b.color_bb c)).get ⟨i⟩ = (b.color_bb c).get ⟨i⟩ := by
        intro c
        split_ifs with h
        · rw [BitBoard.get_set _ _ _ _ hsq hsqi]
          simp [hraw]
        · rfl
      rw [unch c1] at h1
      rw [unch c2] at h2
      exact (hb i hi).1 c1 c2 h1 h2
  · intro k1 k2 h1 h2
    rw [Board.set_some_piece] at h1 h2
    by_cases hraw : i = sraw
    · subst hraw
      have key : ∀ k : Fin 6,
          ((if k = p.kind.toIdx then (b.piece_bb k).set ⟨i⟩ true
            else b.piece_bb k)).get ⟨i⟩ = true → k = p.kind.toIdx := by
        intro k hkk
        by_contra hne
        rw [if_neg hne] at hkk
        rw [hac.2 k] at hkk
        cases hkk
      rw [key k1 h1, key k2 h2]
    · have unch : ∀ k : Fin 6,
          ((if k = p.kind.toIdx then (b.piece_bb k).set ⟨sraw⟩ true
            else b.piece_bb k)).get ⟨i⟩ = (b.piece_bb k).get ⟨i⟩ := by
        intro k
        split_ifs with h
        · rw [BitBoard.get_set _ _ _ _ hsq hsqi]
          simp [hraw]
        · rfl
      rw [unch k1] at h1
      rw [unch k2] at h2
      exact (hb i hi).2 k1 k2 h1 h2

/-- Auxiliary: induction along a clear-disciplined `set`-call sequence: the
mutual-exclusion invariant holds after every prefix. -/
theorem Board.excl_chain (ops : List (Square × Option Piece)) :
    ∀ b : Board, b.Excl →
      (∀ op ∈ ops, op.1.raw ≤ 63) →
      List.Chain' Rclear ops →
      (∀ sq p, ops.head? = some (sq, some p) → b.AllClearAt sq) →
      ∀ k, (applyOps b (ops.take k)).Excl := by
  induction ops with
  | nil =>
    intro b hb _ _ _ k
    simpa [applyOps] using hb
  | cons op rest ih =>
    intro b hb hv hchain hhead k
    match k with
    | 0 => simpa [applyOps] using hb
    | k + 1 =>
      obtain ⟨sq, opt⟩ := op
      have hops : applyOps b (((sq, opt) :: rest).take (k + 1)) =
          applyOps (b.set sq opt) (rest.take k) := rfl
      rw [hops]
      have hrel := (List.chain'_cons'.mp hchain).1
      have hchain' := (List.chain'_cons'.mp hchain).2
      have hv' : ∀ op ∈ rest, op.1.raw ≤ 63 :=
        fun o ho => hv o (List.mem_cons_of_mem _ ho)
      have hsq : sq.raw ≤ 63 := hv (sq, opt) (List.mem_cons_self _ _)
      cases opt with
      | none =>
        apply ih (b.set sq none) (Board.excl_set_none b sq hsq hb) hv' hchain'
        intro sq2 p2 hh
        have hr := hrel (sq2, some p2) (Option.mem_def.mpr hh) (by simp)
        have hs : sq = sq2 := congrArg Prod.fst hr
        rw [← hs]
        exact Board.set_none_allClear b sq hsq
      | some p =>
        have hac := hhead sq p rfl
        apply ih (b.set sq (some p)) (Board.excl_set_some b sq p hsq hb hac)
          hv' hchain'
        intro sq2 p2 hh
        have hr := hrel (sq2, some p2) (Option.mem_def.mpr hh) (by simp)
        exact absurd (congrArg Prod.snd hr) (by simp)

/-- Auxiliary: unfolding equations of the `Display for Board` loops. -/
theorem Board.fmtCells_zero (b : Board) (s : Nat) : b.fmtCells 0 s = ([], s) := rfl

/-- Auxiliary: one step of the inner cell loop. -/
theorem Board.fmtCells_succ (b : Board) (n s : Nat) :
    b.fmtCells (n + 1) s =
      (b.cell s ++ (b.fmtCells n (s + 1)).1, (b.fmtCells n (s + 1)).2) := rfl

/-- Auxiliary: the outer row loop at zero. -/
theorem Board.fmtRows_zero (b : Board) (s : Nat) : b.fmtRows 0 s = [] := rfl

/-- Auxiliary: one step of the outer row loop. -/
theorem Board.fmtRows_succ (b : Board) (n s : Nat) :
    b.fmtRows (n + 1) s =
      (b.fmtCells 8 s).1 ++ '\n' :: b.fmtRows n ((b.fmtCells 8 s).2 - 16) := rfl

/-- C2: starting from the empty (default) board, for every sequence of
in-range `set` calls in which each `set(square, Some(piece))` is immediately
preceded by `set(square, None)` on the same square, after each call (that
is, after every prefix of the sequence) every square has its bit set in at
most one color bitboard and in at most one piece-kind bitboard. -/
theorem c2_mutual_exclusion (ops : List (Square × Option Piece))
    (hv : ∀ op ∈ ops, op.1.raw ≤ 63) (hcb : ClearBefore ops) :
    ∀ k, (applyOps Board.empty (ops.take k)).Excl := by
  apply Board.excl_chain ops Board.empty Board.excl_empty hv hcb.2
  intro sq p hh
  exfalso
  cases ops with
  | nil => cases hh
  | cons op rest =>
    obtain ⟨s, o⟩ := op
    have heq : (s, o) = (sq, some p) := by
      have hh' := hh
      simp [List.head?] at hh'
      exact Prod.ext hh'.1 hh'.2
    rw [heq] at hcb
    exact hcb.1

/-- Witness for C2: clearing a1 and then placing a white pawn there keeps
the invariant after both calls. -/
theorem c2_mutual_exclusion_witness :
    (applyOps Board.empty
      ([(⟨0⟩, none), (⟨0⟩, some ⟨Color.White, PieceKind.Pawn⟩)].take 2)).Excl :=
  c2_mutual_exclusion
    [(⟨0⟩, none), (⟨0⟩, some ⟨Color.White, PieceKind.Pawn⟩)]
    (by decide) ⟨trivial, List.Chain.cons (fun _ => rfl) List.Chain.nil⟩ 2

/-- C3: for every board state (including inconsistent ones) and every
in-range square, `set(sq, None)` makes `get(sq)` return `None` and leaves
`get` unchanged on every other square. -/
theorem c3_clear_correct (b : Board) (sq : Square) (hsq : sq.raw ≤ 63) :
    (b.set sq none).get sq = none ∧
    ∀ t : Square, t.raw ≤ 63 → t ≠ sq → (b.set sq none).get t = b.get t := by
  constructor
  · have hc : ∀ c : Fin 2, ((b.set sq none).color_bb c).get sq = false := by
      intro c
      rw [Board.set_none_color, BitBoard.get_set _ _ _ _ hsq hsq]
      simp
    have hcol : (b.set sq none).get_color sq = none := by
      rw [Board.get_color_eq]
      simp [hc 0, hc 1]
    unfold Board.get
    rw [hcol]
  · intro t ht hne
    have hraw : t.raw ≠ sq.raw := by
      intro hcon
      apply hne
      cases t
      cases sq
      cases hcon
      rfl
    apply Board.get_congr
    · intro c
      rw [Board.set_none_color, BitBoard.get_set _ _ _ _ hsq ht]
      simp [hraw]
    · intro k
      rw [Board.set_none_piece, BitBoard.get_set _ _ _ _ hsq ht]
      simp [hraw]

/-- Witness for C3: clearing a1 on the starting position empties a1 and
leaves square b1 (raw 1) unchanged. -/
theorem c3_clear_correct_witness :
    (Board.starting_position.set ⟨0⟩ none).get ⟨0⟩ = none ∧
    (Board.starting_position.set ⟨0⟩ none).get ⟨1⟩ =
      Board.starting_position.get ⟨1⟩ :=
  ⟨(c3_clear_correct Board.starting_position ⟨0⟩ (by decide)).1,
   (c3_clear_correct Board.starting_position ⟨0⟩ (by decide)).2 ⟨1⟩
     (by decide) (by decide)⟩

/-- C4: the starting position has exactly 32 occupied squares; a1
(rank 0, file 0, raw 0) holds a White Rook, e1 (rank 0, file 4, raw 4) a
White King, d8 (rank 7, file 3, raw 59) a Black Queen, e8 (rank 7, file 4,
raw 60) a Black King, and every square whose rank index is 2 through 5 is
unoccupied. -/
theorem c4_starting_position :
    ((List.range 64).filter
      fun i => (Board.starting_position.get ⟨i⟩).isSome).length = 32 ∧
    Square.at' 0 0 = some ⟨0⟩ ∧
    Board.starting_position.get ⟨0⟩ = some ⟨.White, .Rook⟩ ∧
    Square.at' 0 4 = some ⟨4⟩ ∧
    Board.starting_position.get ⟨4⟩ = some ⟨.White, .King⟩ ∧
    Square.at' 7 3 = some ⟨59⟩ ∧
    Board.starting_position.get ⟨59⟩ = some ⟨.Black, .Queen⟩ ∧
    Square.at' 7 4 = some ⟨60⟩ ∧
    Board.starting_position.get ⟨60⟩ = some ⟨.Black, .King⟩ ∧
    (∀ i : Fin 64, 2 ≤ (⟨i.val⟩ : Square).rank → (⟨i.val⟩ : Square).rank ≤ 5 →
      Board.starting_position.get ⟨i.val⟩ = none) := by
  decide

/-- C7: `get` succeeds exactly when both `get_color` and `get_piece_kind`
succeed, returning their pair; when either is absent (an empty or
inconsistent square), `get` returns `None`. -/
theorem c7_get_components (b : Board) (sq : Square) :
    (∀ p : Piece, b.get sq = some p ↔
      (b.get_color sq = some p.color ∧ b.get_piece_kind sq = some p.kind)) ∧
    ((b.get_color sq = none ∨ b.get_piece_kind sq = none) →
      b.get sq = none) := by
  constructor
  · intro p
    obtain ⟨pc, pk⟩ := p
    cases hc : b.get_color sq <;> cases hk : b.get_piece_kind sq <;>
      simp [Board.get, hc, hk, Piece.mk.injEq, and_comm]
  · intro h
    rcases h with h | h
    · unfold Board.get
      rw [h]
    · unfold Board.get
      rw [h]
      cases hc : b.get_color sq <;> rfl

/-- Witness for C7 on the starting position: a1 reads as the White Rook
pair, and an empty square (raw 16) reads as `None`. -/
theorem c7_get_components_witness :
    (Board.starting_position.get ⟨0⟩ = some ⟨Color.White, PieceKind.Rook⟩ ↔
      (Board.starting_position.get_color ⟨0⟩ = some Color.White ∧
       Board.starting_position.get_piece_kind ⟨0⟩ = some PieceKind.Rook)) ∧
    Board.starting_position.get ⟨16⟩ = none :=
  ⟨(c7_get_components Board.starting_position ⟨0⟩).1 ⟨Color.White, PieceKind.Rook⟩,
   (c7_get_components Board.starting_position ⟨16⟩).2 (Or.inl (by decide))⟩

/-- C8: rendering a board produces the header line followed by exactly 8
rank rows, from rank index 7 down to 0, each row traversing files 0 through
7 left to right, each cell showing the glyph of `get` when occupied and
blank otherwise: the rendering equals the grid described by the spec. -/
theorem c8_display_grid (b : Board) : b.render = b.renderSpec := by
  simp [Board.render, Board.renderSpec, Board.fmtRows_succ, Board.fmtCells_succ,
    Board.fmtCells_zero, Board.fmtRows_zero, List.range_succ, List.append_assoc]

/-- Witness for C8: the rendering of the starting position matches the
spec's grid. -/
theorem c8_display_grid_witness :
    Board.starting_position.render = Board.starting_position.renderSpec :=
  c8_display_grid Board.starting_position

/-- C9: `set(sq, Some(p))` sets the bit for `p`'s color and for `p`'s kind
at `sq` without clearing any other color or kind bit at `sq`, leaves `get`
unchanged on every other square, and if `sq` was clear in every bitboard
beforehand then `get(sq)` afterwards returns `Some(p)`. -/
theorem c9_set_some (b : Board) (sq : Square) (p : Piece) (hsq : sq.raw ≤ 63) :
    ((b.set sq (some p)).color_bb p.color.toIdx).get sq = true ∧
    (∀ c : Fin 2, c ≠ p.color.toIdx →
      ((b.set sq (some p)).color_bb c).get sq = (b.color_bb c).get sq) ∧
    ((b.set sq (some p)).piece_bb p.kind.toIdx).get sq = true ∧
    (∀ k : Fin 6, k ≠ p.kind.toIdx →
      ((b.set sq (some p)).piece_bb k).get sq = (b.piece_bb k).get sq) ∧
    (∀ t : Square, t.raw ≤ 63 → t ≠ sq → (b.set sq (some p)).get t = b.get t) ∧
    (b.AllClearAt sq → (b.set sq (some p)).get sq = some p) := by
  have hcbit : ∀ c : Fin 2, ((b.set sq (some p)).color_bb c).get sq =
      (if c = p.color.toIdx then true else (b.color_bb c).get sq) := by
    intro c
    rw [Board.set_some_color]
    split_ifs with h
    · rw [BitBoard.get_set _ _ _ _ hsq hsq]
      simp
    · rfl
  have hkbit : ∀ k : Fin 6, ((b.set sq (some p)).piece_bb k).get sq =
      (if k = p.kind.toIdx then true else (b.piece_bb k).get sq) := by
    intro k
    rw [Board.set_some_piece]
    split_ifs with h
    · rw [BitBoard.get_set _ _ _ _ hsq hsq]
      simp
    · rfl
  refine ⟨by simp [hcbit], fun c hc => by simp [hcbit, hc], by simp [hkbit],
    fun k hk => by simp [hkbit, hk], ?_, ?_⟩
  · intro t ht hne
    have hraw : t.raw ≠ sq.raw := by
      intro hcon
      apply hne
      cases t
      cases sq
      cases hcon
      rfl
    apply Board.get_congr
    · intro c
      rw [Board.set_some_color]
      split_ifs with h
      · rw [BitBoard.get_set _ _ _ _ hsq ht]
        simp [hraw]
      · rfl
    · intro k
      rw [Board.set_some_piece]
      split_ifs with h
      · rw [BitBoard.get_set _ _ _ _ hsq ht]
        simp [hraw]
      · rfl
  · intro hac
    have hcol : (b.set sq (some p)).get_color sq = some p.color := by
      rw [Board.get_color_eq]
      cases hpc : p.color <;>
        simp [hcbit 0, hcbit 1, hpc, Color.toIdx, hac.1 0, hac.1 1]
    have hkind : (b.set sq (some p)).get_piece_kind sq = some p.kind := by
      rw [Board.get_piece_kind_eq]
      cases hpk : p.kind <;>
        simp [hkbit 0, hkbit 1, hkbit 2, hkbit 3, hkbit 4, hkbit 5, hpk,
          PieceKind.toIdx, hac.2 0, hac.2 1, hac.2 2, hac.2 3, hac.2 4, hac.2 5]
    unfold Board.get
    rw [hcol, hkind]

/-- Witness for C9: placing a White Rook on a1 of the empty board sets its
color and kind bits, leaves the other bitboards and square b1 unchanged,
and `get(a1)` reads the rook back. -/
theorem c9_set_some_witness :
    ((Board.empty.set ⟨0⟩ (some ⟨Color.White, PieceKind.Rook⟩)).color_bb
        (Piece.mk Color.White PieceKind.Rook).color.toIdx).get ⟨0⟩ = true ∧
    ((Board.empty.set ⟨0⟩ (some ⟨Color.White, PieceKind.Rook⟩)).color_bb 1).get ⟨0⟩ =
      (Board.empty.color_bb 1).get ⟨0⟩ ∧
    ((Board.empty.set ⟨0⟩ (some ⟨Color.White, PieceKind.Rook⟩)).piece_bb
        (Piece.mk Color.White PieceKind.Rook).kind.toIdx).get ⟨0⟩ = true ∧
    ((Board.empty.set ⟨0⟩ (some ⟨Color.White, PieceKind.Rook⟩)).piece_bb 0).get ⟨0⟩ =
      (Board.empty.piece_bb 0).get ⟨0⟩ ∧
    (Board.empty.set ⟨0⟩ (some ⟨Color.White, PieceKind.Rook⟩)).get ⟨1⟩ =
      Board.empty.get ⟨1⟩ ∧
    (Board.empty.set ⟨0⟩ (some ⟨Color.White, PieceKind.Rook⟩)).get ⟨0⟩ =
      some ⟨Color.White, PieceKind.Rook⟩ :=
  have h := c9_set_some Board.empty ⟨0⟩ ⟨Color.White, PieceKind.Rook⟩ (by decide)
  ⟨h.1, h.2.1 1 (by decide), h.2.2.1, h.2.2.2.1 0 (by decide),
   h.2.2.2.2.1 ⟨1⟩ (by decide) (by decide), h.2.2.2.2.2 ⟨by decide, by decide⟩⟩

end Sealion
